import Mathlib

/-!
Verification development for the gigaverse-ai-site repository.

The repository builds a docs index by crawling a GitBook site
(scripts/build_docs_index.mjs and an earlier variant of the same script),
serves question answering over it (api/chat.js), and post-processes the
answer generator's output (mode, citations).  All string-processing code is
modelled over `List Char` (JS strings are sequences of UTF-16 code units;
the model covers the ASCII behaviour of `toLowerCase` and the JS whitespace
class — exotic Unicode case mappings such as U+212A are outside the model).
-/

namespace Giga

/-! ### Character classes (from the regexes in api/chat.js and
scripts/build_docs_index.mjs) -/

/-- ASCII lower-case letter test. -/
def isLowerAlpha (c : Char) : Bool := 'a' ≤ c && c ≤ 'z'

/-- ASCII upper-case letter test. -/
def isUpperAlpha (c : Char) : Bool := 'A' ≤ c && c ≤ 'Z'

/-- ASCII digit test. -/
def isDigit (c : Char) : Bool := '0' ≤ c && c ≤ '9'

/-- ASCII lowering, as performed by `String.prototype.toLowerCase` on ASCII. -/
def asciiLower (c : Char) : Char :=
  if isUpperAlpha c then Char.ofNat (c.toNat + 32) else c

/-- JS `\s` class (the members representable here; ` ` is U+00A0). -/
def isJsSpace (c : Char) : Bool :=
  c = ' ' || c = '\t' || c = '\n' || c = '\r' || c = '\x0b' || c = '\x0c' ||
  c = ' ' || c = '﻿'

/-- JS `\w` / word-boundary class: `[A-Za-z0-9_]`. -/
def isWordChar (c : Char) : Bool :=
  isLowerAlpha c || isUpperAlpha c || isDigit c || c = '_'

/-- `String.prototype.trim`: drop JS whitespace from both ends. -/
def jsTrim (l : List Char) : List Char :=
  ((l.dropWhile isJsSpace).reverse.dropWhile isJsSpace).reverse

/-! ### The `normalize` helper of api/chat.js

`normalize(s) = s.toLowerCase().replace(/[^a-z0-9\s]/g, " ")
                 .replace(/\s+/g, " ").trim()`

After the first two steps every character is either a lower-case ASCII
alphanumeric or a whitespace character, and the last two steps turn every
maximal whitespace run into a single `' '` and drop outer whitespace.  This
is literally: map each character (keeping lower alphanumerics, lowering
upper ASCII letters, sending everything else to `' '`), then join the
maximal non-space runs with single spaces. -/

/-- Character-level effect of `toLowerCase` + `replace(/[^a-z0-9\s]/g, " ")`,
with every whitespace character already collapsed to `' '` (sound because the
later `replace(/\s+/g, " ")` sends each whitespace run, of any length, to a
single space). -/
def normChar (c : Char) : Char :=
  if isLowerAlpha c || isDigit c then c
  else if isUpperAlpha c then asciiLower c
  else ' '

/-- Maximal non-space runs of a list, in order (`tokens " a bc " = [[a],[b,c]]`). -/
def tokens : List Char → List (List Char)
  | [] => []
  | c :: rest =>
    if c = ' ' then tokens rest
    else
      match rest with
      | [] => [[c]]
      | d :: _ =>
        if d = ' ' then [c] :: tokens rest
        else
          match tokens rest with
          | [] => [[c]]
          | t :: ts => (c :: t) :: ts

/-- Join token lists with single spaces (the normal form produced by
`replace(/\s+/g, " ").trim()`). -/
def glue : List (List Char) → List Char
  | [] => []
  | [t] => t
  | t :: t2 :: ts => t ++ ' ' :: glue (t2 :: ts)

/-- The `normalize` helper of api/chat.js. -/
def normalize (s : List Char) : List Char :=
  glue (tokens (s.map normChar))

theorem tokens_cons (c : Char) (rest : List Char) :
    tokens (c :: rest) =
      if c = ' ' then tokens rest
      else
        match rest with
        | [] => [[c]]
        | d :: _ =>
          if d = ' ' then [c] :: tokens rest
          else
            match tokens rest with
            | [] => [[c]]
            | t :: ts => (c :: t) :: ts := by
  rw [tokens.eq_def]

theorem tokens_cons_of_ne_nil {d : Char} (l : List Char) (hd : ¬ d = ' ') :
    tokens (d :: l) ≠ [] := by
  rw [tokens_cons]
  simp only [hd, if_false]
  match l with
  | [] => simp
  | e :: t =>
    by_cases he : e = ' ' <;> simp only [he, if_true, if_false] <;>
      [skip; cases htoken : tokens (e :: t)] <;> simp

theorem tokens_single (c : Char) (hc : ¬ c = ' ') : tokens [c] = [[c]] := by
  rw [tokens_cons, if_neg hc]

theorem tokens_cons_cons_of_sp (c d : Char) (l : List Char) (hc : ¬ c = ' ')
    (hd : d = ' ') : tokens (c :: d :: l) = [c] :: tokens (d :: l) := by
  rw [tokens_cons, if_neg hc]
  dsimp only
  rw [if_pos hd]

theorem tokens_cons_cons_of_ne (c d : Char) (l : List Char) (hc : ¬ c = ' ')
    (hd : ¬ d = ' ') (t : List Char) (ts : List (List Char))
    (htk : tokens (d :: l) = t :: ts) :
    tokens (c :: d :: l) = (c :: t) :: ts := by
  rw [tokens_cons, if_neg hc]
  dsimp only
  rw [if_neg hd, htk]

theorem glue_cons_cons (c : Char) (t : List Char) (ts : List (List Char)) :
    glue ((c :: t) :: ts) = c :: glue (t :: ts) := by
  cases ts <;> rfl

theorem ne_nil_mem_tokens : ∀ (l : List Char), ∀ t ∈ tokens l, t ≠ []
  | [], t, ht => by simp [tokens] at ht
  | c :: rest, t, ht => by
    rw [tokens_cons] at ht
    by_cases hc : c = ' '
    · simp only [hc, if_true] at ht
      exact ne_nil_mem_tokens rest t ht
    · simp only [hc, if_false] at ht
      match rest with
      | [] =>
        simp at ht
        simp [ht]
      | d :: rest2 =>
        dsimp only at ht
        by_cases hd : d = ' '
        · rw [if_pos hd] at ht
          rcases List.mem_cons.mp ht with h1 | h2
          · simp [h1]
          · exact ne_nil_mem_tokens (d :: rest2) t h2
        · rw [if_neg hd] at ht
          cases htk : tokens (d :: rest2) with
          | nil => simp [htk] at ht; simp [ht]
          | cons t0 ts0 =>
            simp only [htk, List.mem_cons] at ht
            rcases ht with h1 | h2
            · simp [h1]
            · exact ne_nil_mem_tokens (d :: rest2) t (by simp [htk, h2])

theorem glue_ne_nil {ts : List (List Char)} (h : ts ≠ [])
    (hne : ∀ t ∈ ts, t ≠ []) : glue ts ≠ [] := by
  match ts with
  | [] => exact absurd rfl h
  | [t] =>
    have := hne t (by simp)
    simpa [glue] using this
  | t :: t2 :: ts2 =>
    have := hne t (by simp)
    simp only [glue]
    intro hcontra
    rcases List.append_eq_nil.mp hcontra with ⟨h1, h2⟩
    simp at h2

theorem prefix_cons_cons {a : Char} {l₁ l₂ : List Char} (h : l₁ <+: l₂) :
    a :: l₁ <+: a :: l₂ := by
  obtain ⟨t, ht⟩ := h
  exact ⟨t, by simp [ht]⟩

/-- The glued tokens of a suffix survive as a suffix of the glued tokens of
the whole list. -/
theorem glue_tokens_suffix : ∀ (x y : List Char),
    glue (tokens y) <:+ glue (tokens (x ++ y))
  | [], y => List.suffix_refl _
  | c :: x', y => by
    have ih := glue_tokens_suffix x' y
    show glue (tokens y) <:+ glue (tokens (c :: (x' ++ y)))
    by_cases hc : c = ' '
    · rw [tokens_cons, if_pos hc]
      exact ih
    · match hxy : x' ++ y with
      | [] =>
        have hy : y = [] := (List.append_eq_nil.mp hxy).2
        subst hy
        show [] <:+ glue (tokens [c])
        exact List.nil_suffix
      | d :: rest =>
        rw [hxy] at ih
        by_cases hd : d = ' '
        · rw [tokens_cons_cons_of_sp c d rest hc hd]
          cases htk : tokens (d :: rest) with
          | nil =>
            rw [htk] at ih
            have hnn : glue (tokens y) = [] :=
              List.suffix_nil.mp (by simpa [glue] using ih)
            rw [hnn]
            exact List.nil_suffix
          | cons t0 ts0 =>
            rw [htk] at ih
            refine ih.trans ?_
            simp only [glue, List.cons_append, List.nil_append]
            exact (List.suffix_cons ' ' _).trans (List.suffix_cons c _)
        · cases htk : tokens (d :: rest) with
          | nil => exact absurd htk (tokens_cons_of_ne_nil rest hd)
          | cons t0 ts0 =>
            rw [tokens_cons_cons_of_ne c d rest hc hd t0 ts0 htk, glue_cons_cons]
            rw [htk] at ih
            exact ih.trans (List.suffix_cons c _)

/-- The glued tokens of a prefix survive as a prefix of the glued tokens of
the whole list. -/
theorem glue_tokens_prefix : ∀ (x y : List Char),
    glue (tokens x) <+: glue (tokens (x ++ y))
  | [], y => by simp [tokens, glue]
  | c :: x', y => by
    have ih := glue_tokens_prefix x' y
    show glue (tokens (c :: x')) <+: glue (tokens (c :: (x' ++ y)))
    by_cases hc : c = ' '
    · rw [tokens_cons, if_pos hc, tokens_cons, if_pos hc]
      exact ih
    · match x' with
      | [] =>
        rw [tokens_single c hc, List.nil_append]
        simp only [glue]
        match y with
        | [] =>
          rw [tokens_single c hc]
          simp only [glue]
          exact List.prefix_refl _
        | d :: y2 =>
          by_cases hd : d = ' '
          · rw [tokens_cons_cons_of_sp c d y2 hc hd]
            cases htk : tokens (d :: y2) with
            | nil =>
              simp [glue]
            | cons t0 ts0 =>
              exact ⟨' ' :: glue (t0 :: ts0), by simp [glue]⟩
          · cases htk : tokens (d :: y2) with
            | nil => exact absurd htk (tokens_cons_of_ne_nil y2 hd)
            | cons t0 ts0 =>
              rw [tokens_cons_cons_of_ne c d y2 hc hd t0 ts0 htk, glue_cons_cons]
              exact ⟨glue (t0 :: ts0), by simp [glue]⟩
      | e :: x'' =>
        by_cases he : e = ' '
        · rw [tokens_cons_cons_of_sp c e x'' hc he, List.cons_append,
            tokens_cons_cons_of_sp c e (x'' ++ y) hc he]
          rw [List.cons_append] at ih
          cases htk : tokens (e :: x'') with
          | nil =>
            cases htk2 : tokens (e :: (x'' ++ y)) with
            | nil => exact List.prefix_refl _
            | cons t0 ts0 =>
              simp only [glue]
              exact ⟨' ' :: glue (t0 :: ts0), by simp [glue]⟩
          | cons s0 ss0 =>
            rw [htk] at ih
            cases htk2 : tokens (e :: (x'' ++ y)) with
            | nil =>
              rw [htk2] at ih
              exact absurd (List.prefix_nil.mp (by simpa [glue] using ih))
                (glue_ne_nil (by simp)
                  (fun t ht => ne_nil_mem_tokens (e :: x'') t (htk ▸ ht)))
            | cons t0 ts0 =>
              rw [htk2] at ih
              simp only [glue, List.cons_append, List.nil_append]
              exact prefix_cons_cons (prefix_cons_cons ih)
        · rw [List.cons_append]
          rw [List.cons_append] at ih
          cases htk : tokens (e :: x'') with
          | nil => exact absurd htk (tokens_cons_of_ne_nil x'' he)
          | cons s0 ss0 =>
            cases htk2 : tokens (e :: (x'' ++ y)) with
            | nil => exact absurd htk2 (tokens_cons_of_ne_nil (x'' ++ y) he)
            | cons t0 ts0 =>
              rw [tokens_cons_cons_of_ne c e x'' hc he s0 ss0 htk,
                tokens_cons_cons_of_ne c e (x'' ++ y) hc he t0 ts0 htk2,
                glue_cons_cons, glue_cons_cons]
              rw [htk, htk2] at ih
              exact prefix_cons_cons ih

/-- `normalize` of a suffix is a suffix of `normalize` of the whole. -/
theorem normalize_suffix_append (x y : List Char) :
    normalize y <:+ normalize (x ++ y) := by
  unfold normalize
  rw [List.map_append]
  exact glue_tokens_suffix _ _

/-- `normalize` of a prefix is a prefix of `normalize` of the whole. -/
theorem normalize_prefix_append (x y : List Char) :
    normalize x <+: normalize (x ++ y) := by
  unfold normalize
  rw [List.map_append]
  exact glue_tokens_prefix _ _

/-- Substring containment in a normalized text is preserved when more raw
text is appended. -/
theorem infix_normalize_append {w x : List Char} (y : List Char)
    (h : w <:+: normalize x) : w <:+: normalize (x ++ y) :=
  h.trans (normalize_prefix_append x y).isInfix

/-- The normalized appended text contains the normalized appendix. -/
theorem normalize_infix_appended (x y : List Char) :
    normalize y <:+: normalize (x ++ y) :=
  (normalize_suffix_append x y).isInfix

/-! ### The reranking scorer of api/chat.js (`makeScorer`) -/

/-- A candidate chunk as read by the scorer (`chunk?.title || ""`,
`chunk?.section || ""`, `chunk?.text || ""`); the `url` field of the API
chunk is never consulted by `scoreChunk`, so it is omitted here.  The JS
`section` field is called `sectionLabel` (`section` is reserved in Lean). -/
structure Chunk where
  title : List Char
  sectionLabel : List Char
  text : List Char
deriving DecidableEq

/-- The fixed `intentWords` list of `makeScorer`. -/
def intentWords : List (List Char) :=
  ["how".toList, "where".toList, "what".toList, "drop".toList, "drops".toList,
    "craft".toList, "earn".toList, "get".toList, "use".toList, "fight".toList,
    "best".toList]

/-- `q.split(" ").filter((w) => w.length >= 3)` where `q = normalize(qRaw)`:
splitting the normalized query at single spaces yields exactly its maximal
non-space runs. -/
def qWords (qRaw : List Char) : List (List Char) :=
  (tokens (qRaw.map normChar)).filter (fun w => 3 ≤ w.length)

/-- Per-word contribution of the `for (const w of qWords)` loop
(`title.includes(w)`, `section.includes(w)`, `text.includes(w)` with
weights 6 / 4 / 1). -/
def wordTerm (title sec text w : List Char) : Int :=
  (if w <:+: title then 6 else 0) + (if w <:+: sec then 4 else 0) +
    (if w <:+: text then 1 else 0)

/-- Per-intent-word contribution of the `for (const iw of intentWords)` loop. -/
def intentTerm (q title sec text iw : List Char) : Int :=
  if ¬ iw <:+: q then 0
  else if iw <:+: title ∨ iw <:+: sec then 4
  else if iw <:+: text then 1 else 0

/-- The short-chunk penalty: `if (len > 0 && len < 140) score -= 4`,
on the raw (un-normalized) text length. -/
def lenPenalty (n : Nat) : Int := if 0 < n ∧ n < 140 then -4 else 0

/-- The `scoreChunk` closure produced by `makeScorer(qRaw)` in api/chat.js.
String `includes` is substring containment, i.e. `<:+:` on `List Char`. -/
def scoreChunk (qRaw : List Char) (c : Chunk) : Int :=
  let q := normalize qRaw
  let title := normalize c.title
  let sec := normalize c.sectionLabel
  let text := normalize c.text
  if text = [] ∧ title = [] ∧ sec = [] then 0
  else
    (if q ≠ [] ∧ q <:+: text then 30 else 0)
      + (if q ≠ [] ∧ q <:+: title then 24 else 0)
      + (if q ≠ [] ∧ q <:+: sec then 16 else 0)
      + ((qWords qRaw).map (wordTerm title sec text)).sum
      + (intentWords.map (intentTerm q title sec text)).sum
      + lenPenalty c.text.length

theorem ite_infix_mono {w T T2 : List Char} (h : T <+: T2) (x : Int)
    (hx : 0 ≤ x) :
    (if w <:+: T then x else 0) ≤ (if w <:+: T2 then x else 0) := by
  by_cases hw : w <:+: T
  · rw [if_pos hw, if_pos (hw.trans h.isInfix)]
  · rw [if_neg hw]
    by_cases hw2 : w <:+: T2
    · rw [if_pos hw2]
      exact hx
    · rw [if_neg hw2]

theorem wordTerm_mono (title sec T T2 w : List Char) (h : T <+: T2) :
    wordTerm title sec T w ≤ wordTerm title sec T2 w :=
  add_le_add (le_refl _) (ite_infix_mono h 1 (by norm_num))

theorem intentTerm_mono (q title sec T T2 iw : List Char) (h : T <+: T2) :
    intentTerm q title sec T iw ≤ intentTerm q title sec T2 iw := by
  unfold intentTerm
  by_cases h1 : iw <:+: q
  · rw [if_neg (not_not_intro h1), if_neg (not_not_intro h1)]
    by_cases h2 : iw <:+: title ∨ iw <:+: sec
    · rw [if_pos h2, if_pos h2]
    · rw [if_neg h2, if_neg h2]
      exact ite_infix_mono h 1 (by norm_num)
  · rw [if_pos h1, if_pos h1]

theorem wordTerm_nonneg (title sec text w : List Char) :
    0 ≤ wordTerm title sec text w := by
  unfold wordTerm
  split_ifs <;> norm_num

theorem intentTerm_nonneg (q title sec text iw : List Char) :
    0 ≤ intentTerm q title sec text iw := by
  unfold intentTerm
  split_ifs <;> norm_num

theorem lenPenalty_le_zero (n : Nat) : lenPenalty n ≤ 0 := by
  unfold lenPenalty
  split_ifs <;> norm_num

theorem neg_four_le_lenPenalty (n : Nat) : -4 ≤ lenPenalty n := by
  unfold lenPenalty
  split_ifs <;> norm_num

theorem sum_map_nonneg {α : Type} (l : List α) (f : α → Int)
    (h : ∀ a ∈ l, 0 ≤ f a) : 0 ≤ (l.map f).sum := by
  induction l with
  | nil => simp
  | cons a t ih =>
    simp only [List.map_cons, List.sum_cons]
    have h1 := h a (by simp)
    have h2 := ih (fun x hx => h x (by simp [hx]))
    omega

/-- C5: For every query and every chunk whose text does not already contain
the (normalized) query string, appending the exact query string verbatim to
the chunk's text strictly increases its `scoreChunk` score: the appended
text gains the `+30` full-query substring bonus, all other contributions are
monotone in the text, and the short-chunk penalty can cost at most 4. -/
theorem scoreChunk_strict_mono_append (qRaw : List Char) (c : Chunk)
    (h : ¬ normalize qRaw <:+: normalize c.text) :
    scoreChunk qRaw c < scoreChunk qRaw { c with text := c.text ++ qRaw } := by
  have hq : normalize qRaw ≠ [] := by
    intro he
    exact h (by rw [he]; exact List.nil_infix)
  have hpre : normalize c.text <+: normalize (c.text ++ qRaw) :=
    normalize_prefix_append _ _
  have hq2 : normalize qRaw <:+: normalize (c.text ++ qRaw) :=
    normalize_infix_appended _ _
  have hT2ne : normalize (c.text ++ qRaw) ≠ [] := by
    intro he
    exact hq (List.infix_nil.mp (he ▸ hq2))
  have hS2 : ((qWords qRaw).map
        (wordTerm (normalize c.title) (normalize c.sectionLabel)
          (normalize c.text))).sum ≤
      ((qWords qRaw).map
        (wordTerm (normalize c.title) (normalize c.sectionLabel)
          (normalize (c.text ++ qRaw)))).sum :=
    List.sum_le_sum (fun w _ => wordTerm_mono _ _ _ _ w hpre)
  have hS3 : (intentWords.map
        (intentTerm (normalize qRaw) (normalize c.title)
          (normalize c.sectionLabel) (normalize c.text))).sum ≤
      (intentWords.map
        (intentTerm (normalize qRaw) (normalize c.title)
          (normalize c.sectionLabel) (normalize (c.text ++ qRaw)))).sum :=
    List.sum_le_sum (fun iw _ => intentTerm_mono _ _ _ _ _ iw hpre)
  have hS2p : 0 ≤ ((qWords qRaw).map
      (wordTerm (normalize c.title) (normalize c.sectionLabel)
        (normalize (c.text ++ qRaw)))).sum :=
    sum_map_nonneg _ _ (fun w _ => wordTerm_nonneg _ _ _ w)
  have hS3p : 0 ≤ (intentWords.map
      (intentTerm (normalize qRaw) (normalize c.title)
        (normalize c.sectionLabel) (normalize (c.text ++ qRaw)))).sum :=
    sum_map_nonneg _ _ (fun iw _ => intentTerm_nonneg _ _ _ _ iw)
  simp only [scoreChunk]
  by_cases hE : normalize c.text = [] ∧ normalize c.title = [] ∧
      normalize c.sectionLabel = []
  · rw [if_pos hE]
    rw [if_neg (by intro hcon; exact hT2ne hcon.1)]
    rw [if_pos ⟨hq, hq2⟩]
    have hti : ¬ (normalize qRaw ≠ [] ∧ normalize qRaw <:+: normalize c.title) := by
      rw [hE.2.1]
      intro hcon
      exact hq (List.infix_nil.mp hcon.2)
    have hse : ¬ (normalize qRaw ≠ [] ∧ normalize qRaw <:+: normalize c.sectionLabel) := by
      rw [hE.2.2]
      intro hcon
      exact hq (List.infix_nil.mp hcon.2)
    rw [if_neg hti, if_neg hse]
    have hP := neg_four_le_lenPenalty (c.text ++ qRaw).length
    linarith
  · have hL30 : ¬ (normalize qRaw ≠ [] ∧ normalize qRaw <:+: normalize c.text) :=
      fun hcon => h hcon.2
    have hER : ¬ (normalize (c.text ++ qRaw) = [] ∧ normalize c.title = [] ∧
        normalize c.sectionLabel = []) := fun hcon => hT2ne hcon.1
    conv_lhs => rw [if_neg hE, if_neg hL30]
    conv_rhs => rw [if_neg hER, if_pos ⟨hq, hq2⟩]
    have hP1 := lenPenalty_le_zero c.text.length
    have hP2 := neg_four_le_lenPenalty (c.text ++ qRaw).length
    linarith

/-- C5 witness: a concrete chunk not containing the query, scored before and
after appending the query verbatim. -/
theorem scoreChunk_strict_mono_append_witness :
    ¬ normalize "craft".toList <:+: normalize "tips only".toList ∧
      scoreChunk "craft".toList
          ⟨"Fishing".toList, [], "tips only".toList⟩ <
        scoreChunk "craft".toList
          ⟨"Fishing".toList, [], "tips only".toList ++ "craft".toList⟩ :=
  ⟨by decide,
    scoreChunk_strict_mono_append "craft".toList
      ⟨"Fishing".toList, [], "tips only".toList⟩ (by decide)⟩

/-! ### URL scope filter (`isAllowed` of the earlier build script and
`normalizeUrl` of scripts/build_docs_index.mjs) -/

/-- Components of a successfully parsed WHATWG URL that the scope filter and
canonicalizer consult.  A parse failure (`new URL` throwing, i.e. a malformed
URL) is modelled as `none` at the use sites. -/
structure ParsedUrl where
  host : List Char
  pathname : List Char
  search : List Char
  hash : List Char
deriving DecidableEq

/-- Configured crawl host. -/
def ALLOWED_HOST : List Char := "glhfers.gitbook.io".toList

/-- Configured crawl path root. -/
def ALLOWED_PREFIX : List Char := "/gigaverse".toList

/-- `isAllowed(urlStr)` of the earlier build script: true iff the URL parses,
its host equals the allowed host, and its pathname starts with the allowed
path root; the catch branch returns false. -/
def isAllowed : Option ParsedUrl → Bool
  | none => false
  | some u =>
    if u.host ≠ ALLOWED_HOST then false
    else if ¬ ALLOWED_PREFIX.isPrefixOf u.pathname then false
    else true

/-- `pathname.replace(/\/+$/, "/")`: collapse a trailing slash run. -/
def dropTrailingSlashes (p : List Char) : List Char :=
  (p.reverse.dropWhile (fun c => c = '/')).reverse

/-- The trailing-slash normalization step of `normalizeUrl` in
scripts/build_docs_index.mjs. -/
def normTrailing (p : List Char) : List Char :=
  if p.getLast? = some '/' ∧ p ≠ ['/'] then dropTrailingSlashes p ++ ['/'] else p

/-- `normalizeUrl(raw, base)` of scripts/build_docs_index.mjs after parsing:
rejects off-host and off-path URLs with `null`, otherwise strips the hash
and query and normalizes the trailing slash; the catch branch is `none`
input mapping to `none`. -/
def normalizeUrlFilter : Option ParsedUrl → Option ParsedUrl
  | none => none
  | some u =>
    if u.host ≠ ALLOWED_HOST then none
    else if ¬ ALLOWED_PREFIX.isPrefixOf u.pathname then none
    else some { u with hash := [], search := [],
                       pathname := normTrailing u.pathname }

theorem allowedPref_append_slash (p : List Char) :
    ALLOWED_PREFIX.isPrefixOf (p ++ ['/']) = ALLOWED_PREFIX.isPrefixOf p := by
  by_cases hp : ALLOWED_PREFIX <+: p
  · have e1 : ALLOWED_PREFIX.isPrefixOf (p ++ ['/']) = true :=
      List.isPrefixOf_iff_prefix.mpr (hp.trans (List.prefix_append _ _))
    have e2 : ALLOWED_PREFIX.isPrefixOf p = true :=
      List.isPrefixOf_iff_prefix.mpr hp
    rw [e1, e2]
  · have h2 : ¬ ALLOWED_PREFIX <+: p ++ ['/'] := by
      intro hcon
      rcases List.prefix_concat_iff.mp hcon with heq | hpre
      · have hlast : ALLOWED_PREFIX.getLast? = some '/' := by
          rw [heq]
          exact List.getLast?_concat p
        have he : ALLOWED_PREFIX.getLast? = some 'e' := by decide
        rw [he] at hlast
        simp at hlast
      · exact hp hpre
    have e1 : ALLOWED_PREFIX.isPrefixOf (p ++ ['/']) = false := by
      rw [Bool.eq_false_iff]
      intro hcon
      exact h2 (List.isPrefixOf_iff_prefix.mp hcon)
    have e2 : ALLOWED_PREFIX.isPrefixOf p = false := by
      rw [Bool.eq_false_iff]
      intro hcon
      exact hp (List.isPrefixOf_iff_prefix.mp hcon)
    rw [e1, e2]

/-- C4: the scope filter accepts a URL exactly when its host equals the
configured allowed host and its path starts with the configured allowed path
root; a malformed URL is rejected by returning the out-of-scope result
rather than throwing; fragment, query (tracking-parameter) and trailing
slash differences never change the outcome; and the canonicalizing
`normalizeUrl` of the current build script filters exactly the same set. -/
theorem isAllowed_spec :
    (∀ u : ParsedUrl, isAllowed (some u) = true ↔
        (u.host = ALLOWED_HOST ∧ ALLOWED_PREFIX <+: u.pathname))
    ∧ isAllowed none = false
    ∧ (∀ (u : ParsedUrl) (s hsh : List Char),
        isAllowed (some { u with search := s, hash := hsh }) =
          isAllowed (some u))
    ∧ (∀ u : ParsedUrl,
        isAllowed (some { u with pathname := u.pathname ++ ['/'] }) =
          isAllowed (some u))
    ∧ (∀ ou : Option ParsedUrl,
        (normalizeUrlFilter ou).isSome = isAllowed ou) := by
  refine ⟨?_, rfl, ?_, ?_, ?_⟩
  · intro u
    simp only [isAllowed]
    by_cases hh : u.host = ALLOWED_HOST
    · rw [if_neg (not_not_intro hh)]
      by_cases hp : ALLOWED_PREFIX <+: u.pathname
      · rw [if_neg (not_not_intro (( List.isPrefixOf_iff_prefix).mpr hp))]
        simp [hh, hp]
      · rw [if_pos (by simpa [ List.isPrefixOf_iff_prefix] using hp)]
        simp [hp]
    · rw [if_pos hh]
      simp [hh]
  · intro u s hsh
    rfl
  · intro u
    simp only [isAllowed]
    rw [allowedPref_append_slash]
  · intro ou
    match ou with
    | none => rfl
    | some u =>
      simp only [normalizeUrlFilter, isAllowed]
      by_cases hh : u.host ≠ ALLOWED_HOST
      · rw [if_pos hh, if_pos hh]
        rfl
      · rw [if_neg hh, if_neg hh]
        by_cases hp : ¬ ALLOWED_PREFIX.isPrefixOf u.pathname
        · rw [if_pos hp, if_pos hp]
          rfl
        · rw [if_neg hp, if_neg hp]
          rfl

/-! ### The chunker of scripts/build_docs_index.mjs (`chunkByParagraphs`)

`MIN_CHUNK_CHARS`, `CHUNK_TARGET_CHARS` and `CHUNK_OVERLAP_CHARS` are
environment-configured module constants; they are passed here explicitly as
`minC`, `target`, `overlap`. -/

/-- `text.split(/\n{2,}/)`: split at each maximal run of two or more
newlines (a single newline does not separate). -/
def splitRuns : List Char → List (List Char)
  | [] => [[]]
  | c :: rest =>
    if c = '\n' ∧ rest.head? = some '\n' then
      [] :: splitRuns (rest.dropWhile (fun d => d = '\n'))
    else
      match splitRuns rest with
      | [] => [[c]]
      | p :: ps => (c :: p) :: ps
termination_by l => l.length
decreasing_by
  · rename_i rest h
    have hs : List.Sublist (rest.dropWhile (fun d => d = '\n')) rest :=
      List.dropWhile_sublist _
    have := hs.length_le
    simp
    omega
  · simp

/-- `text.split(/\n{2,}/).map((p) => p.trim()).filter(Boolean)`. -/
def splitParas (text : List Char) : List (List Char) :=
  ((splitRuns text).map jsTrim).filter (fun p => ¬ p.isEmpty)

/-- `Math.max(1, targetChars - overlapChars)`: the hard-slice advance. -/
def sliceStep (target overlap : Nat) : Nat := max 1 (target - overlap)

/-- The hard-slice loop for an oversized paragraph:
`while (start < p.length) { slice = p.slice(start, start + targetChars);
 if (slice.trim().length >= MIN_CHUNK_CHARS) chunks.push(slice.trim());
 start += Math.max(1, targetChars - overlapChars); }`. -/
def hardSlice (minC target overlap : Nat) (p : List Char) (start : Nat) :
    List (List Char) :=
  if h : start < p.length then
    if minC ≤ (jsTrim ((p.drop start).take target)).length then
      jsTrim ((p.drop start).take target)
        :: hardSlice minC target overlap p (start + sliceStep target overlap)
    else hardSlice minC target overlap p (start + sliceStep target overlap)
  else []
termination_by p.length - start
decreasing_by
  all_goals
    have h1 : 1 ≤ sliceStep target overlap := Nat.le_max_left _ _
    omega

/-- `current.join("\n\n")`. -/
def glueNl : List (List Char) → List Char
  | [] => []
  | [t] => t
  | t :: t2 :: ts => t ++ '\n' :: '\n' :: glueNl (t2 :: ts)

/-- `pushChunk()`: emit the joined buffer only if it reaches the minimum. -/
def pushIf (minC : Nat) (j : List Char) : List (List Char) :=
  if minC ≤ j.length then [j] else []

/-- The trimmed join of the paragraph buffer. -/
def joinChunk (current : List (List Char)) : List Char := jsTrim (glueNl current)

/-- The paragraph loop of `chunkByParagraphs`, carrying the `current`
buffer and its `currentLen` accounting exactly as in the source. -/
def chunkLoop (minC target overlap : Nat) :
    List (List Char) → List (List Char) → Nat → List (List Char)
  | [], current, currentLen =>
    if 0 < currentLen then pushIf minC (joinChunk current) else []
  | p :: ps, current, currentLen =>
    if 2 * p.length > 3 * target then
      (if 0 < currentLen then pushIf minC (joinChunk current) else [])
        ++ hardSlice minC target overlap p 0
        ++ chunkLoop minC target overlap ps [] 0
    else if currentLen + p.length + 2 > target ∧ 0 < currentLen then
      pushIf minC (joinChunk current)
        ++ (let prev := glueNl current
            let carry := jsTrim (prev.drop (prev.length - overlap))
            if carry.isEmpty then
              chunkLoop minC target overlap ps [p] (p.length + 2)
            else
              chunkLoop minC target overlap ps [carry, p]
                (carry.length + (p.length + 2)))
    else chunkLoop minC target overlap ps (current ++ [p])
      (currentLen + (p.length + 2))

/-- `chunkByParagraphs(text, targetChars, overlapChars)` of
scripts/build_docs_index.mjs (the `p.length > targetChars * 1.5` test is
the integer-exact `2 * p.length > 3 * target`). -/
def chunkByParagraphs (minC target overlap : Nat) (text : List Char) :
    List (List Char) :=
  chunkLoop minC target overlap (splitParas text) [] 0

theorem jsTrim_length_le (l : List Char) : (jsTrim l).length ≤ l.length := by
  unfold jsTrim
  have h1 : List.Sublist (l.dropWhile isJsSpace) l := List.dropWhile_sublist _
  have h2 : List.Sublist ((l.dropWhile isJsSpace).reverse.dropWhile isJsSpace)
      (l.dropWhile isJsSpace).reverse := List.dropWhile_sublist _
  have g1 := h1.length_le
  have g2 := h2.length_le
  simp only [List.length_reverse] at *
  omega

theorem mem_pushIf {minC : Nat} {j c : List Char} (h : c ∈ pushIf minC j) :
    minC ≤ c.length ∧ c = j := by
  unfold pushIf at h
  by_cases hle : minC ≤ j.length
  · rw [if_pos hle] at h
    simp at h
    exact ⟨h ▸ hle, h⟩
  · rw [if_neg hle] at h
    simp at h

theorem hardSlice_bounds (minC target overlap : Nat) (p : List Char) :
    ∀ (start : Nat), ∀ c ∈ hardSlice minC target overlap p start,
      minC ≤ c.length ∧ c.length ≤ target := by
  have main : ∀ (n start : Nat), p.length - start ≤ n →
      ∀ c ∈ hardSlice minC target overlap p start,
        minC ≤ c.length ∧ c.length ≤ target := by
    intro n
    induction n with
    | zero =>
      intro start hle c hc
      rw [hardSlice, dif_neg (by omega)] at hc
      simp at hc
    | succ n ih =>
      intro start hle c hc
      by_cases h : start < p.length
      · rw [hardSlice, dif_pos h] at hc
        have hstep : 1 ≤ sliceStep target overlap := Nat.le_max_left _ _
        have hrec : p.length - (start + sliceStep target overlap) ≤ n := by omega
        have hsl : (jsTrim ((p.drop start).take target)).length ≤ target := by
          calc (jsTrim ((p.drop start).take target)).length
              ≤ ((p.drop start).take target).length := jsTrim_length_le _
            _ ≤ target := by
                rw [List.length_take]
                exact Nat.min_le_left _ _
        by_cases hmin : minC ≤ (jsTrim ((p.drop start).take target)).length
        · rw [if_pos hmin] at hc
          rcases List.mem_cons.mp hc with h1 | h2
          · exact ⟨h1 ▸ hmin, h1 ▸ hsl⟩
          · exact ih _ hrec c h2
        · rw [if_neg hmin] at hc
          exact ih _ hrec c hc
      · rw [hardSlice, dif_neg h] at hc
        simp at hc
  exact fun start => main (p.length - start) start (le_refl _)

theorem chunkLoop_min (minC target overlap : Nat) :
    ∀ (ps current : List (List Char)) (len : Nat),
      ∀ c ∈ chunkLoop minC target overlap ps current len, minC ≤ c.length := by
  intro ps
  induction ps with
  | nil =>
    intro current len c hc
    rw [chunkLoop] at hc
    by_cases h0 : 0 < len
    · rw [if_pos h0] at hc
      exact (mem_pushIf hc).1
    · rw [if_neg h0] at hc
      simp at hc
  | cons p ps ih =>
    intro current len c hc
    rw [chunkLoop] at hc
    by_cases hbig : 2 * p.length > 3 * target
    · rw [if_pos hbig] at hc
      rcases List.mem_append.mp hc with h1 | h2
      · rcases List.mem_append.mp h1 with h3 | h4
        · by_cases h0 : 0 < len
          · rw [if_pos h0] at h3
            exact (mem_pushIf h3).1
          · rw [if_neg h0] at h3
            simp at h3
        · exact (hardSlice_bounds minC target overlap p 0 c h4).1
      · exact ih [] 0 c h2
    · rw [if_neg hbig] at hc
      by_cases hflush : len + p.length + 2 > target ∧ 0 < len
      · rw [if_pos hflush] at hc
        rcases List.mem_append.mp hc with h1 | h2
        · exact (mem_pushIf h1).1
        · simp only at h2
          by_cases hcarry :
              (jsTrim ((glueNl current).drop ((glueNl current).length - overlap))).isEmpty
          · rw [if_pos hcarry] at h2
            exact ih [p] (p.length + 2) c h2
          · rw [if_neg hcarry] at h2
            exact ih _ _ c h2
      · rw [if_neg hflush] at hc
        exact ih _ _ c hc

/-- C3 (amended): every chunk emitted by `chunkByParagraphs` has length at
least `MIN_CHUNK_CHARS` (below-minimum candidates are discarded rather than
emitted), and every chunk emitted by the single-paragraph hard-slice
fallback additionally respects the upper bound `targetChars`.  The upper
bound does not hold for chunks of the normal paragraph-packing path (see
the counterexample). -/
theorem chunk_size_bounds (minC target overlap : Nat) :
    (∀ text : List Char, ∀ c ∈ chunkByParagraphs minC target overlap text,
        minC ≤ c.length)
    ∧ (∀ (p : List Char) (start : Nat),
        ∀ c ∈ hardSlice minC target overlap p start,
          minC ≤ c.length ∧ c.length ≤ target) :=
  ⟨fun text => chunkLoop_min minC target overlap (splitParas text) [] 0,
    hardSlice_bounds minC target overlap⟩

/-- C3 counterexample: with configured sizes `MIN_CHUNK_CHARS = 3`,
`targetChars = 10`, `overlapChars = 2`, a single 12-character paragraph
(not oversized enough for the hard-slice fallback, since 12 ≤ 1.5 · 10) is
emitted as one unsplit chunk of length 12 > 10, violating
`len(text) <= MAX_CHUNK_CHARS`. -/
theorem chunk_upper_bound_cex :
    List.replicate 12 'a' ∈ chunkByParagraphs 3 10 2 (List.replicate 12 'a')
      ∧ 10 < (List.replicate 12 'a').length := by
  have he : chunkByParagraphs 3 10 2 (List.replicate 12 'a') =
      [List.replicate 12 'a'] := by
    simp [chunkByParagraphs, splitParas, splitRuns, jsTrim, isJsSpace,
      chunkLoop, joinChunk, glueNl, pushIf, List.replicate]
  rw [he]
  simp

/-- C3 witness: the amended bounds evaluated at concrete inputs. -/
theorem chunk_size_bounds_witness :
    3 ≤ (List.replicate 12 'a').length ∧
      (1 ≤ (List.replicate 5 'a').length ∧ (List.replicate 5 'a').length ≤ 5) := by
  constructor
  · refine (chunk_size_bounds 3 10 2).1 (List.replicate 12 'a')
      (List.replicate 12 'a') ?_
    have he : chunkByParagraphs 3 10 2 (List.replicate 12 'a') =
        [List.replicate 12 'a'] := by
      simp [chunkByParagraphs, splitParas, splitRuns, jsTrim, isJsSpace,
        chunkLoop, joinChunk, glueNl, pushIf, List.replicate]
    rw [he]
    simp
  · refine (chunk_size_bounds 1 5 2).2 (List.replicate 12 'a') 0
      (List.replicate 5 'a') ?_
    have he : hardSlice 1 5 2 (List.replicate 12 'a') 0 =
        [List.replicate 5 'a', List.replicate 5 'a', List.replicate 5 'a',
          List.replicate 3 'a'] := by
      simp [hardSlice, sliceStep, jsTrim, isJsSpace, List.replicate]
    rw [he]
    simp

theorem pushIf_length_le (minC : Nat) (j : List Char) :
    (pushIf minC j).length ≤ 1 := by
  unfold pushIf
  split_ifs <;> simp

theorem hardSlice_length_le (minC target overlap : Nat) (p : List Char) :
    ∀ (start : Nat),
      (hardSlice minC target overlap p start).length ≤ p.length - start := by
  have main : ∀ (n start : Nat), p.length - start ≤ n →
      (hardSlice minC target overlap p start).length ≤ p.length - start := by
    intro n
    induction n with
    | zero =>
      intro start hle
      rw [hardSlice, dif_neg (by omega)]
      simp
    | succ n ih =>
      intro start hle
      by_cases h : start < p.length
      · rw [hardSlice, dif_pos h]
        have hstep : 1 ≤ sliceStep target overlap := Nat.le_max_left _ _
        have hrec := ih (start + sliceStep target overlap) (by omega)
        by_cases hmin : minC ≤ (jsTrim ((p.drop start).take target)).length
        · rw [if_pos hmin]
          simp only [List.length_cons]
          omega
        · rw [if_neg hmin]
          omega
      · rw [hardSlice, dif_neg h]
        simp
  exact fun start => main (p.length - start) start (le_refl _)

theorem splitRuns_sum_le : ∀ l : List Char,
    (((splitRuns l).map List.length).sum) ≤ l.length := by
  have main : ∀ (n : Nat) (l : List Char), l.length ≤ n →
      (((splitRuns l).map List.length).sum) ≤ l.length := by
    intro n
    induction n with
    | zero =>
      intro l hle
      have : l = [] := List.eq_nil_of_length_eq_zero (by omega)
      subst this
      simp [splitRuns]
    | succ n ih =>
      intro l hle
      match l with
      | [] => simp [splitRuns]
      | c :: rest =>
        rw [splitRuns]
        by_cases hsep : c = '\n' ∧ rest.head? = some '\n'
        · rw [if_pos hsep]
          have hsub : List.Sublist (rest.dropWhile (fun d => d = '\n')) rest :=
            List.dropWhile_sublist _
          have hlen := hsub.length_le
          have hrec := ih (rest.dropWhile (fun d => d = '\n'))
            (by simp at hle; omega)
          simp only [List.map_cons, List.sum_cons, List.length_nil,
            List.length_cons]
          omega
        · rw [if_neg hsep]
          have hrec := ih rest (by simp at hle; omega)
          cases htk : splitRuns rest with
          | nil =>
            simp
          | cons p ps =>
            rw [htk] at hrec
            simp only [List.map_cons, List.sum_cons, List.length_cons] at *
            omega
  exact fun l => main l.length l (le_refl _)

theorem length_le_sum_of_ne_nil : ∀ l : List (List Char),
    (∀ p ∈ l, p ≠ []) → l.length ≤ ((l.map List.length).sum) := by
  intro l
  induction l with
  | nil => simp
  | cons p ps ih =>
    intro h
    have hp := h p (by simp)
    have hps := ih (fun q hq => h q (by simp [hq]))
    have : 1 ≤ p.length := by
      cases p with
      | nil => exact absurd rfl hp
      | cons a t => simp
    simp only [List.length_cons, List.map_cons, List.sum_cons]
    omega

theorem splitParas_sum_le (text : List Char) :
    (((splitParas text).map List.length).sum) ≤ text.length := by
  unfold splitParas
  have h1 : List.Sublist
      ((((splitRuns text).map jsTrim).filter (fun p => ¬ p.isEmpty)))
      ((splitRuns text).map jsTrim) := List.filter_sublist _
  have h2 := (h1.map List.length).sum_le_sum (fun a _ => Nat.zero_le a)
  have h3 : ((((splitRuns text).map jsTrim).map List.length).sum) ≤
      (((splitRuns text).map List.length).sum) := by
    rw [List.map_map]
    exact List.sum_le_sum (fun p _ => jsTrim_length_le p)
  have h4 := splitRuns_sum_le text
  omega

theorem splitParas_count_le (text : List Char) :
    (splitParas text).length ≤ text.length := by
  have h1 : ∀ p ∈ splitParas text, p ≠ [] := by
    intro p hp
    unfold splitParas at hp
    have := List.of_mem_filter hp
    simp at this
    simpa using this
  calc (splitParas text).length
      ≤ (((splitParas text).map List.length).sum) :=
        length_le_sum_of_ne_nil _ h1
    _ ≤ text.length := splitParas_sum_le text

theorem sum_one_add (ps : List (List Char)) :
    ((ps.map (fun p => 1 + p.length)).sum) = ps.length + ((ps.map List.length).sum) := by
  induction ps with
  | nil => simp
  | cons p t ih =>
    simp only [List.map_cons, List.sum_cons, List.length_cons, ih]
    omega

theorem chunkLoop_length_le (minC target overlap : Nat) :
    ∀ (ps current : List (List Char)) (len : Nat),
      (chunkLoop minC target overlap ps current len).length ≤
        ((ps.map (fun p => 1 + p.length)).sum) + 1 := by
  intro ps
  induction ps with
  | nil =>
    intro current len
    rw [chunkLoop]
    split_ifs
    · simpa using pushIf_length_le minC (joinChunk current)
    · simp
  | cons p ps ih =>
    intro current len
    rw [chunkLoop]
    have hsum : ((List.map (fun p => 1 + p.length) (p :: ps)).sum) =
        (1 + p.length) + ((ps.map (fun p => 1 + p.length)).sum) := by
      simp
    by_cases hbig : 2 * p.length > 3 * target
    · rw [if_pos hbig]
      have h1 : (if 0 < len then pushIf minC (joinChunk current) else []).length ≤ 1 := by
        split_ifs
        · exact pushIf_length_le _ _
        · simp
      have h2 := hardSlice_length_le minC target overlap p 0
      have h3 := ih [] 0
      simp only [List.length_append]
      omega
    · rw [if_neg hbig]
      by_cases hflush : len + p.length + 2 > target ∧ 0 < len
      · rw [if_pos hflush]
        have h1 := pushIf_length_le minC (joinChunk current)
        simp only [List.length_append]
        by_cases hcarry :
            (jsTrim ((glueNl current).drop ((glueNl current).length - overlap))).isEmpty
        · rw [if_pos hcarry]
          have h3 := ih [p] (p.length + 2)
          omega
        · rw [if_neg hcarry]
          have h3 := ih [jsTrim ((glueNl current).drop ((glueNl current).length - overlap)), p]
            ((jsTrim ((glueNl current).drop ((glueNl current).length - overlap))).length + (p.length + 2))
          omega
      · rw [if_neg hflush]
        have h3 := ih (current ++ [p]) (len + (p.length + 2))
        omega

/-- C10: the chunker is total and yields a finite output for every input and
every target/overlap configuration, including `overlap ≥ target`: the
hard-slice advance `Math.max(1, target − overlap)` is always at least one,
each hard-slice pass over a paragraph emits at most one chunk per remaining
character, and the whole chunker emits at most `2·len(text) + 1` chunks. -/
theorem chunker_finite (minC target overlap : Nat) :
    1 ≤ sliceStep target overlap
    ∧ (∀ (p : List Char) (start : Nat),
        (hardSlice minC target overlap p start).length ≤ p.length - start)
    ∧ (∀ text : List Char,
        (chunkByParagraphs minC target overlap text).length ≤
          2 * text.length + 1) := by
  refine ⟨Nat.le_max_left _ _, hardSlice_length_le minC target overlap, ?_⟩
  intro text
  unfold chunkByParagraphs
  have h1 := chunkLoop_length_le minC target overlap (splitParas text) [] 0
  have h2 := sum_one_add (splitParas text)
  have h3 := splitParas_sum_le text
  have h4 := splitParas_count_le text
  omega

/-! ### The crawl loop of the build scripts (`main` in
scripts/build_docs_index.mjs and in the earlier variant)

`while (queue.length && seen.size < MAX_PAGES) { const url = queue.shift();
 if (!url || seen.has(url)) continue; seen.add(url); ...fetch...;
 for (const l of links) if (!seen.has(l)) queue.push(l); }`

The network is the oracle `links`: `none` models a fetch failure (the catch
branch drops the URL and continues without enqueuing links), `some ls` the
in-scope normalized links discovered on the fetched page.  `fetched` logs
each performed fetch. -/

structure CrawlResult where
  visited : List (List Char)
  queue : List (List Char)
  fetched : List (List Char)
deriving DecidableEq

def crawlLoop (links : List Char → Option (List (List Char)))
    (maxPages : Nat) :
    List (List Char) → List (List Char) → List (List Char) → CrawlResult
  | visited, [], fetched => ⟨visited, [], fetched⟩
  | visited, url :: rest, fetched =>
    if hcap : visited.length < maxPages then
      if url = [] ∨ url ∈ visited then
        crawlLoop links maxPages visited rest fetched
      else
        match links url with
        | none =>
          crawlLoop links maxPages (visited ++ [url]) rest (fetched ++ [url])
        | some ls =>
          crawlLoop links maxPages (visited ++ [url])
            (rest ++ ls.filter (fun l => ¬ l ∈ visited ++ [url]))
            (fetched ++ [url])
    else ⟨visited, url :: rest, fetched⟩
termination_by visited queue fetched => (maxPages - visited.length, queue.length)
decreasing_by
  · apply Prod.Lex.right
    simp
  · apply Prod.Lex.left
    simp only [List.length_append, List.length_cons, List.length_nil]
    omega
  · apply Prod.Lex.left
    simp only [List.length_append, List.length_cons, List.length_nil]
    omega

theorem crawlLoop_inv (links : List Char → Option (List (List Char)))
    (maxPages : Nat) :
    ∀ (visited queue fetched : List (List Char)),
      visited.Nodup → fetched.Nodup → (∀ u ∈ fetched, u ∈ visited) →
      visited.length ≤ maxPages →
      ((crawlLoop links maxPages visited queue fetched).fetched.Nodup
        ∧ ((crawlLoop links maxPages visited queue fetched).queue = []
            ∨ (crawlLoop links maxPages visited queue fetched).visited.length
                = maxPages)) := by
  intro visited queue fetched
  induction visited, queue, fetched using crawlLoop.induct links maxPages with
  | case1 visited fetched =>
    intro h1 h2 h3 h4
    rw [crawlLoop]
    exact ⟨h2, Or.inl rfl⟩
  | case2 visited url rest fetched hcap hskip ih =>
    intro h1 h2 h3 h4
    rw [crawlLoop, dif_pos hcap, if_pos hskip]
    exact ih h1 h2 h3 h4
  | case3 visited url rest fetched hcap hskip hlinks ih =>
    intro h1 h2 h3 h4
    rw [crawlLoop, dif_pos hcap, if_neg hskip, hlinks]
    have hurl : ¬ url ∈ visited := fun hin => hskip (Or.inr hin)
    have hfurl : ¬ url ∈ fetched := fun hin => hurl (h3 url hin)
    refine ih ?_ ?_ ?_ ?_
    · simp [List.nodup_append, h1, hurl]
    · simp [List.nodup_append, h2, hfurl]
    · intro u hu
      rcases List.mem_append.mp hu with h | h
      · exact List.mem_append.mpr (Or.inl (h3 u h))
      · exact List.mem_append.mpr (Or.inr h)
    · simp only [List.length_append, List.length_cons, List.length_nil]
      omega
  | case4 visited url rest fetched hcap hskip ls hlinks ih =>
    intro h1 h2 h3 h4
    rw [crawlLoop, dif_pos hcap, if_neg hskip, hlinks]
    have hurl : ¬ url ∈ visited := fun hin => hskip (Or.inr hin)
    have hfurl : ¬ url ∈ fetched := fun hin => hurl (h3 url hin)
    refine ih ?_ ?_ ?_ ?_
    · simp [List.nodup_append, h1, hurl]
    · simp [List.nodup_append, h2, hfurl]
    · intro u hu
      rcases List.mem_append.mp hu with h | h
      · exact List.mem_append.mpr (Or.inl (h3 u h))
      · exact List.mem_append.mpr (Or.inr h)
    · simp only [List.length_append, List.length_cons, List.length_nil]
      omega
  | case5 visited url rest fetched hcap =>
    intro h1 h2 h3 h4
    rw [crawlLoop, dif_neg hcap]
    refine ⟨h2, Or.inr ?_⟩
    show visited.length = maxPages
    omega

/-- C8: in a single crawl run every URL is fetched at most once (the
visited-set membership test precedes processing, so the fetch log has no
duplicates), the loop halts exactly when the queue empties or the visited
set reaches the page cap, and crawling a single non-empty start URL whose
page has no outgoing in-scope links yields exactly one visited URL, one
fetch, and an empty queue. -/
theorem crawl_once_and_halts (links : List Char → Option (List (List Char)))
    (maxPages : Nat) (start : List Char) :
    ((crawlLoop links maxPages [] [start] []).fetched.Nodup
      ∧ ((crawlLoop links maxPages [] [start] []).queue = []
          ∨ (crawlLoop links maxPages [] [start] []).visited.length = maxPages))
    ∧ (start ≠ [] → 1 ≤ maxPages → links start = some [] →
        crawlLoop links maxPages [] [start] [] = ⟨[start], [], [start]⟩) := by
  constructor
  · exact crawlLoop_inv links maxPages [] [start] [] (by simp) (by simp)
      (by simp) (by simp)
  · intro hne hmax hlinks
    have h0 : (0 : Nat) < maxPages := hmax
    have hskip : ¬ (start = [] ∨ start ∈ ([] : List (List Char))) := by
      simp [hne]
    rw [crawlLoop, dif_pos (by simpa using h0), if_neg hskip, hlinks]
    simp only [List.filter_nil, List.append_nil, List.nil_append]
    rw [crawlLoop]

/-- C8 witness: the scenario evaluated with a concrete two-page budget, a
concrete start URL, and a link oracle returning no links. -/
theorem crawl_once_and_halts_witness :
    ((crawlLoop (fun _ => some []) 2 [] ["s".toList] []).fetched.Nodup
      ∧ ((crawlLoop (fun _ => some []) 2 [] ["s".toList] []).queue = []
          ∨ (crawlLoop (fun _ => some []) 2 [] ["s".toList] []).visited.length = 2))
    ∧ crawlLoop (fun _ => some []) 2 [] ["s".toList] [] =
        ⟨["s".toList], [], ["s".toList]⟩ :=
  ⟨(crawl_once_and_halts (fun _ => some []) 2 "s".toList).1,
    (crawl_once_and_halts (fun _ => some []) 2 "s".toList).2
      (by decide) (by decide) rfl⟩

/-! ### Index Builder aggregation (end of `main` in the earlier build
script): dedupe by chunk id through a JS `Map` (`uniq.set(c.id, c)`), then
`out.sort((a, b) => (a.title + a.section).localeCompare(b.title + b.section))`.
`localeCompare` is modelled as lexicographic comparison of the concatenated
key strings. -/

/-- A persisted chunk record `{ id, title, section, url, text }`. -/
structure DocChunk where
  id : List Char
  title : List Char
  sectionLabel : List Char
  url : List Char
  text : List Char
deriving DecidableEq

/-- One `uniq.set(c.id, c)` step: an existing key keeps its position but
gets the new value; a new key is appended. -/
def updById (acc : List DocChunk) (c : DocChunk) : List DocChunk :=
  if acc.any (fun x => x.id == c.id) then
    acc.map (fun x => if x.id == c.id then c else x)
  else acc ++ [c]

/-- `const uniq = new Map(); for (const c of allChunks) uniq.set(c.id, c);
[...uniq.values()]`. -/
def dedupeById (l : List DocChunk) : List DocChunk := l.foldl updById []

/-- The concatenated sort key `a.title + a.section`. -/
def sortKey (c : DocChunk) : List Char := c.title ++ c.sectionLabel

/-- The comparator: ascending `localeCompare` order of concatenated keys. -/
def keyLe (a b : DocChunk) : Prop := sortKey a ≤ sortKey b

instance : DecidableRel keyLe := fun a b =>
  inferInstanceAs (Decidable (sortKey a ≤ sortKey b))

instance : IsTotal DocChunk keyLe := ⟨fun _ _ => le_total _ _⟩

instance : IsTrans DocChunk keyLe := ⟨fun _ _ _ h1 h2 => le_trans h1 h2⟩

/-- Index Builder aggregation: dedupe by id, then stable sort by the
concatenated key. -/
def buildIndex (l : List DocChunk) : List DocChunk :=
  List.insertionSort keyLe (dedupeById l)

/-- The last chunk of `l` carrying the id `i` (the "last-seen" entry). -/
def lastById (l : List DocChunk) (i : List Char) : Option DocChunk :=
  (l.filter (fun x => x.id == i)).getLast?

theorem updById_ids_nodup {acc : List DocChunk} (c : DocChunk)
    (h : (acc.map (fun x => x.id)).Nodup) :
    ((updById acc c).map (fun x => x.id)).Nodup := by
  unfold updById
  by_cases hany : acc.any (fun x => x.id == c.id) = true
  · rw [if_pos hany]
    have hmap : (acc.map (fun x => if x.id == c.id then c else x)).map
        (fun x => x.id) = acc.map (fun x => x.id) := by
      rw [List.map_map]
      apply List.map_congr_left
      intro x _
      by_cases hid : x.id = c.id
      · simp [hid]
      · simp [hid]
    rw [hmap]
    exact h
  · rw [if_neg hany]
    rw [List.map_append]
    simp only [List.map_cons, List.map_nil]
    rw [List.nodup_append]
    refine ⟨h, List.nodup_singleton _, ?_⟩
    intro i hi hci
    simp only [List.mem_singleton] at hci
    obtain ⟨y, hy, hyid⟩ := List.mem_map.mp hi
    simp only [List.any_eq_true, not_exists, not_and] at hany
    exact hany y hy (by simp [hyid, hci])

theorem mem_updById {acc : List DocChunk} {c x : DocChunk}
    (hx : x ∈ updById acc c) :
    (x.id = c.id → x = c) ∧ (x.id ≠ c.id → x ∈ acc) := by
  unfold updById at hx
  by_cases hany : acc.any (fun x => x.id == c.id) = true
  · rw [if_pos hany] at hx
    obtain ⟨y, hy, hxy⟩ := List.mem_map.mp hx
    by_cases hid : y.id = c.id
    · rw [if_pos (by simp [hid])] at hxy
      subst hxy
      exact ⟨fun _ => rfl, fun hne => absurd rfl hne⟩
    · rw [if_neg (by simp [hid])] at hxy
      subst hxy
      exact ⟨fun heq => absurd heq hid, fun _ => hy⟩
  · rw [if_neg hany] at hx
    simp only [List.any_eq_true, not_exists, not_and] at hany
    rcases List.mem_append.mp hx with hin | hc
    · have hne : x.id ≠ c.id := fun heq => hany x hin (by simp [heq])
      exact ⟨fun heq => absurd heq hne, fun _ => hin⟩
    · simp only [List.mem_singleton] at hc
      subst hc
      exact ⟨fun _ => rfl, fun hne => absurd rfl hne⟩

theorem dedupe_aux : ∀ (l acc : List DocChunk),
    ((acc.map (fun x => x.id)).Nodup) →
    (((List.foldl updById acc l).map (fun x => x.id)).Nodup
      ∧ ∀ x ∈ List.foldl updById acc l,
          (x.id ∈ l.map (fun c => c.id) ∧ lastById l x.id = some x)
          ∨ (¬ x.id ∈ l.map (fun c => c.id) ∧ x ∈ acc)) := by
  intro l
  induction l with
  | nil =>
    intro acc h
    exact ⟨h, fun x hx => Or.inr ⟨by simp, hx⟩⟩
  | cons a t ih =>
    intro acc h
    have hnd : ((updById acc a).map (fun x => x.id)).Nodup :=
      updById_ids_nodup a h
    obtain ⟨h1, h2⟩ := ih (updById acc a) hnd
    refine ⟨h1, ?_⟩
    intro x hx
    rcases h2 x hx with ⟨hin, hlast⟩ | ⟨hnin, hacc⟩
    · left
      refine ⟨by simp [hin], ?_⟩
      unfold lastById at *
      rw [List.filter_cons]
      by_cases hai : a.id = x.id
      · rw [if_pos (by simp [hai])]
        cases hfe : t.filter (fun c => c.id == x.id) with
        | nil =>
          obtain ⟨y, hy, hyid⟩ := List.mem_map.mp hin
          have hymem : y ∈ t.filter (fun c => c.id == x.id) :=
            List.mem_filter.mpr ⟨hy, by simp [hyid]⟩
          simp [hfe] at hymem
        | cons b l2 =>
          rw [hfe] at hlast
          rw [List.getLast?_cons_cons]
          exact hlast
      · rw [if_neg (by simp [hai])]
        exact hlast
    · have hm := mem_updById hacc
      by_cases hxa : x.id = a.id
      · have hxc : x = a := hm.1 hxa
        left
        refine ⟨by simp [hxa], ?_⟩
        unfold lastById
        rw [List.filter_cons, if_pos (by simp [hxa])]
        have hfe : t.filter (fun c => c.id == x.id) = [] := by
          rw [List.filter_eq_nil_iff]
          intro y hy
          intro hyid
          exact hnin (List.mem_map.mpr ⟨y, hy, by simpa using hyid.symm⟩)
        rw [hfe]
        simp [hxc]
      · right
        refine ⟨?_, hm.2 hxa⟩
        simp only [List.map_cons, List.mem_cons]
        intro hcon
        rcases hcon with hh | hh
        · exact hxa hh
        · exact hnin hh

/-- C7 (amended): for every multiset of crawled chunks, the Index Builder
output has pairwise-distinct chunk ids, every output entry is the last-seen
chunk of its id (last-write-wins), and the output is totally ordered by the
concatenated key `title + section` — not by the composite pair
(title, then section); see the counterexample.  The aggregation is a pure
function of its input, so identical inputs give identical output order. -/
theorem buildIndex_spec (l : List DocChunk) :
    List.Sorted keyLe (buildIndex l)
    ∧ ((buildIndex l).map (fun c => c.id)).Nodup
    ∧ ∀ c ∈ buildIndex l, lastById l c.id = some c := by
  refine ⟨List.sorted_insertionSort keyLe _, ?_, ?_⟩
  · have hperm := List.perm_insertionSort keyLe (dedupeById l)
    have hnd : ((dedupeById l).map (fun c => c.id)).Nodup :=
      (dedupe_aux l [] (by simp)).1
    exact ((hperm.map (fun c => c.id)).nodup_iff).mpr hnd
  · intro c hc
    have hmem : c ∈ dedupeById l := (List.mem_insertionSort keyLe).mp hc
    rcases (dedupe_aux l [] (by simp)).2 c hmem with ⟨_, hl⟩ | ⟨_, habs⟩
    · exact hl
    · simp at habs

/-- The composite sort key of the specification: by title, then section
(pairwise lexicographic order).  This definition follows the spec's words
and is compared against the code's concatenated-key order. -/
def compositeLe (a b : DocChunk) : Prop :=
  a.title < b.title ∨ (a.title = b.title ∧ a.sectionLabel ≤ b.sectionLabel)

instance : DecidableRel compositeLe := fun a b => by
  unfold compositeLe
  infer_instance

/-- C7 counterexample: chunks titled "b"/"z" and "ba"/"a" sort as
["baa", "bz"] under the code's concatenated key, although the composite
(title, then section) order puts title "b" before title "ba"; the output is
therefore not ordered by the spec's composite key. -/
theorem buildIndex_composite_cex :
    ¬ List.Sorted compositeLe
      (buildIndex
        [⟨"1".toList, "b".toList, "z".toList, [], []⟩,
          ⟨"2".toList, "ba".toList, "a".toList, [], []⟩]) := by
  decide

/-- C7 witness: with two chunks sharing id "x", the aggregated entry is the
last-seen one. -/
theorem buildIndex_spec_witness :
    lastById
        [⟨"x".toList, "t".toList, "s1".toList, [], []⟩,
          ⟨"x".toList, "t".toList, "s2".toList, [], []⟩] "x".toList =
      some ⟨"x".toList, "t".toList, "s2".toList, [], []⟩ :=
  (buildIndex_spec
      [⟨"x".toList, "t".toList, "s1".toList, [], []⟩,
        ⟨"x".toList, "t".toList, "s2".toList, [], []⟩]).2.2
    ⟨"x".toList, "t".toList, "s2".toList, [], []⟩ (by decide)

/-! ### Chat response post-processing (api/chat.js handler, lines 415–454:
parsing the answer generator's JSON, normalizing mode/answer/followups, and
the citation dedupe/cap loop) -/

/-- A proposed citation `{title, section}`. -/
structure Citation where
  title : List Char
  sectionLabel : List Char
deriving DecidableEq

/-- The parsed JSON object returned by the answer generator. -/
structure ParsedOut where
  mode : List Char
  answer : List Char
  followups : List (List Char)
  citations : List Citation

/-- The JSON body sent back to the client. -/
structure ChatResponse where
  mode : List Char
  answer : List Char
  followups : List (List Char)
  citations : List Citation
deriving DecidableEq

def docsMode : List Char := "docs".toList

def helperMode : List Char := "helper".toList

/-- The fallback answer for a blank model answer. -/
def defaultAnswer : List Char :=
  "I can help—what are you trying to do in Gigaverse?".toList

/-- The dedupe key string `t + "__" + s`. -/
def citKey (t s : List Char) : List Char := t ++ "__".toList ++ s

/-- The citation dedupe loop: trim title and section, skip empty titles,
keep the first citation per key. -/
def dedupeCit (seen : List (List Char)) : List Citation → List Citation
  | [] => []
  | c :: rest =>
    if jsTrim c.title = [] then dedupeCit seen rest
    else if citKey (jsTrim c.title) (jsTrim c.sectionLabel) ∈ seen then
      dedupeCit seen rest
    else
      ⟨jsTrim c.title, jsTrim c.sectionLabel⟩ ::
        dedupeCit (citKey (jsTrim c.title) (jsTrim c.sectionLabel) :: seen) rest

/-- Citation post-processing: helper mode discards all citations, then
`unique.slice(0, 3)`. -/
def finalizeCitations (mode : List Char) (cits : List Citation) :
    List Citation :=
  (dedupeCit [] (if mode = helperMode then [] else cits)).take 3

/-- Mode normalization, answer fallback, followup capping, and citation
post-processing, as performed on the parsed model output. -/
def finalizeResponse (p : ParsedOut) : ChatResponse :=
  let mode := if p.mode = docsMode then docsMode else helperMode
  { mode := mode
    answer := if jsTrim p.answer ≠ [] then jsTrim p.answer else defaultAnswer
    followups := (p.followups.take 2).filter (fun x => ¬ x.isEmpty)
    citations := finalizeCitations mode p.citations }

/-- The early-returned social response of the handler (mode "social"). -/
def socialResponse : ChatResponse :=
  { mode := "social".toList
    answer := ("Hey 👋 I’m **Gigaverse AI** — your in-game knowledge assistant.\n\nAsk me anything about **fishing, crafting, giglings/eggs, dungeons, trading, drops,** or **progression** and I’ll guide you.").toList
    followups := ["Want tips to level faster?".toList,
      "What part of the game are you on right now?".toList]
    citations := [] }

/-- The early-returned progression response of the handler. -/
def progressionResponse : ChatResponse :=
  { mode := "progression".toList
    answer := ("I’ve got you 👍\n\nTo give the best “what next” plan, tell me:\n1) What **level** are you?\n2) What are you focusing on right now: **Fishing / Crafting / Giglings (Eggs) / Dungeons / Trading**?\n3) Are you **event-focused** or **dungeon-focused**?").toList
    followups := []
    citations := [] }

/-- Case-insensitive match of a proposed citation against an exposed chunk,
as the specification's Citation Validator demands. -/
def citationMatches (c : Citation) (ch : Chunk) : Prop :=
  c.title.map asciiLower = ch.title.map asciiLower ∧
  c.sectionLabel.map asciiLower = ch.sectionLabel.map asciiLower

theorem dedupeCit_spec (l : List Citation) : ∀ seen : List (List Char),
    List.Pairwise (fun a b : Citation =>
        citKey a.title a.sectionLabel ≠ citKey b.title b.sectionLabel)
        (dedupeCit seen l)
    ∧ ∀ c ∈ dedupeCit seen l,
        citKey c.title c.sectionLabel ∉ seen ∧ c.title ≠ [] ∧
        ∃ c0 ∈ l, c.title = jsTrim c0.title ∧
          c.sectionLabel = jsTrim c0.sectionLabel := by
  induction l with
  | nil =>
    intro seen
    exact ⟨List.Pairwise.nil, by simp [dedupeCit]⟩
  | cons c rest ih =>
    intro seen
    rw [dedupeCit]
    by_cases ht : jsTrim c.title = []
    · rw [if_pos ht]
      obtain ⟨p1, p2⟩ := ih seen
      refine ⟨p1, ?_⟩
      intro x hx
      obtain ⟨q1, q2, c0, hc0, hq⟩ := p2 x hx
      exact ⟨q1, q2, c0, by simp [hc0], hq⟩
    · rw [if_neg ht]
      by_cases hk : citKey (jsTrim c.title) (jsTrim c.sectionLabel) ∈ seen
      · rw [if_pos hk]
        obtain ⟨p1, p2⟩ := ih seen
        refine ⟨p1, ?_⟩
        intro x hx
        obtain ⟨q1, q2, c0, hc0, hq⟩ := p2 x hx
        exact ⟨q1, q2, c0, by simp [hc0], hq⟩
      · rw [if_neg hk]
        obtain ⟨p1, p2⟩ :=
          ih (citKey (jsTrim c.title) (jsTrim c.sectionLabel) :: seen)
        constructor
        · refine List.pairwise_cons.mpr ⟨?_, p1⟩
          intro x hx
          have := (p2 x hx).1
          simp only [List.mem_cons, not_or] at this
          exact fun heq => this.1 (heq ▸ rfl)
        · intro x hx
          rcases List.mem_cons.mp hx with hh | hh
          · subst hh
            exact ⟨hk, ht, c, by simp, rfl, rfl⟩
          · obtain ⟨q1, q2, c0, hc0, hq⟩ := p2 x hh
            simp only [List.mem_cons, not_or] at q1
            exact ⟨q1.2, q2, c0, by simp [hc0], hq⟩

/-- C1 (amended): the handler's citation post-processing performs no
matching against the exposed chunks (see the counterexample); what it does
guarantee is: the returned citations list has at most 3 entries, entries
have pairwise-distinct dedupe keys (in particular pairwise-distinct
(title, section) pairs), every entry has a non-empty trimmed title, and
every entry is the trimmed image of some model-proposed citation. -/
theorem finalizeCitations_spec (mode : List Char) (cits : List Citation) :
    (finalizeCitations mode cits).length ≤ 3
    ∧ List.Pairwise (fun a b : Citation =>
        citKey a.title a.sectionLabel ≠ citKey b.title b.sectionLabel)
        (finalizeCitations mode cits)
    ∧ ∀ c ∈ finalizeCitations mode cits,
        c.title ≠ [] ∧ ∃ c0 ∈ cits, c.title = jsTrim c0.title ∧
          c.sectionLabel = jsTrim c0.sectionLabel := by
  unfold finalizeCitations
  by_cases hm : mode = helperMode
  · rw [if_pos hm]
    simp [dedupeCit]
  · rw [if_neg hm]
    obtain ⟨p1, p2⟩ := dedupeCit_spec cits []
    refine ⟨List.length_take_le _ _, p1.sublist (List.take_sublist _ _), ?_⟩
    intro c hc
    obtain ⟨_, q2, c0, hc0, hq⟩ := p2 c (List.mem_of_mem_take hc)
    exact ⟨q2, c0, hc0, hq⟩

/-- C1 witness: the amended guarantees evaluated on one concrete citation
list (a padded title is trimmed, capped and kept). -/
theorem finalizeCitations_spec_witness :
    (finalizeCitations docsMode [⟨" A ".toList, "B".toList⟩]).length ≤ 3
    ∧ ("A".toList : List Char) ≠ [] ∧
      ∃ c0 ∈ [(⟨" A ".toList, "B".toList⟩ : Citation)],
        ("A".toList : List Char) = jsTrim c0.title ∧
        ("B".toList : List Char) = jsTrim c0.sectionLabel :=
  ⟨(finalizeCitations_spec docsMode [⟨" A ".toList, "B".toList⟩]).1,
    (finalizeCitations_spec docsMode [⟨" A ".toList, "B".toList⟩]).2.2
      ⟨"A".toList, "B".toList⟩ (by decide)⟩

/-- C1 counterexample: with one exposed chunk ("Crafting", "Potions"), a
model-proposed citation naming the absent pair ("Ghost", "X") survives into
the response's citations list — no check against the exposed chunks is
performed. -/
theorem citations_not_validated_cex :
    (⟨"Ghost".toList, "X".toList⟩ : Citation) ∈
        (finalizeResponse
          ⟨docsMode, "a".toList, [],
            [⟨"Ghost".toList, "X".toList⟩]⟩).citations
    ∧ ¬ citationMatches ⟨"Ghost".toList, "X".toList⟩
        ⟨"Crafting".toList, "Potions".toList, "text".toList⟩ := by
  constructor
  · decide
  · intro hcon
    exact absurd hcon.1 (by decide)

/-- C2 (amended): the returned mode is exactly the model's proposed mode
gated to docs/helper — "docs" iff the model proposed "docs" — and it is
never downgraded when the citation list is empty; the answer is always the
trimmed model answer or the fixed fallback, never a disclosure-prefixed
variant; helper mode does force an empty citation list. -/
theorem finalizeResponse_mode_spec (p : ParsedOut) :
    ((finalizeResponse p).mode = docsMode ↔ p.mode = docsMode)
    ∧ ((finalizeResponse p).mode = helperMode →
        (finalizeResponse p).citations = [])
    ∧ ((finalizeResponse p).answer = jsTrim p.answer ∨
        (finalizeResponse p).answer = defaultAnswer) := by
  have hne : docsMode ≠ helperMode := by decide
  by_cases hm : p.mode = docsMode
  · refine ⟨?_, ?_, ?_⟩
    · simp [finalizeResponse, hm]
    · intro hcon
      simp only [finalizeResponse, if_pos hm] at hcon
      exact absurd hcon hne
    · simp only [finalizeResponse]
      by_cases ha : jsTrim p.answer ≠ []
      · rw [if_pos ha]
        exact Or.inl rfl
      · rw [if_neg ha]
        exact Or.inr rfl
  · refine ⟨?_, ?_, ?_⟩
    · simp only [finalizeResponse, if_neg hm]
      exact ⟨fun h => absurd h.symm hne, fun h => absurd h hm⟩
    · intro _
      simp only [finalizeResponse, if_neg hm, finalizeCitations]
      simp [dedupeCit]
    · simp only [finalizeResponse]
      by_cases ha : jsTrim p.answer ≠ []
      · rw [if_pos ha]
        exact Or.inl rfl
      · rw [if_neg ha]
        exact Or.inr rfl

/-- C2 witness: the amended statement evaluated at a concrete parsed
output proposing mode "docs". -/
theorem finalizeResponse_mode_spec_witness :
    ((finalizeResponse ⟨docsMode, " Hi ".toList, [], []⟩).mode = docsMode ↔
        (docsMode : List Char) = docsMode)
    ∧ ((finalizeResponse ⟨docsMode, " Hi ".toList, [], []⟩).answer =
          jsTrim " Hi ".toList ∨
        (finalizeResponse ⟨docsMode, " Hi ".toList, [], []⟩).answer =
          defaultAnswer) :=
  ⟨(finalizeResponse_mode_spec ⟨docsMode, " Hi ".toList, [], []⟩).1,
    (finalizeResponse_mode_spec ⟨docsMode, " Hi ".toList, [], []⟩).2.2⟩

/-- C2 counterexample: the model proposes mode "docs" with zero citations;
the handler returns mode "docs" with an empty citations list and the answer
unchanged — no downgrade to helper mode and no disclosure prefix. -/
theorem docs_mode_empty_citations_cex :
    (finalizeResponse ⟨docsMode, "Yes.".toList, [], []⟩).mode = docsMode
    ∧ (finalizeResponse ⟨docsMode, "Yes.".toList, [], []⟩).citations = []
    ∧ (finalizeResponse ⟨docsMode, "Yes.".toList, [], []⟩).answer =
        "Yes.".toList := by
  refine ⟨?_, ?_, ?_⟩ <;> decide

/-- C9: a returned citations list that is non-empty forces mode "docs";
equivalently helper-mode responses carry no citations, and the early social
and progression responses carry empty citation lists as well. -/
theorem nonempty_citations_implies_docs (p : ParsedOut) :
    ((finalizeResponse p).citations ≠ [] → (finalizeResponse p).mode = docsMode)
    ∧ ((finalizeResponse p).mode = helperMode →
        (finalizeResponse p).citations = [])
    ∧ socialResponse.citations = [] ∧ progressionResponse.citations = [] := by
  have hne : docsMode ≠ helperMode := by decide
  by_cases hm : p.mode = docsMode
  · refine ⟨?_, ?_, rfl, rfl⟩
    · intro _
      simp [finalizeResponse, hm]
    · intro hcon
      simp only [finalizeResponse, if_pos hm] at hcon
      exact absurd hcon hne
  · refine ⟨?_, ?_, rfl, rfl⟩
    · intro hcit
      exfalso
      apply hcit
      simp only [finalizeResponse, if_neg hm, finalizeCitations]
      simp [dedupeCit]
    · intro _
      simp only [finalizeResponse, if_neg hm, finalizeCitations]
      simp [dedupeCit]

/-- C9 witness: a concrete response carrying one citation has mode "docs". -/
theorem nonempty_citations_implies_docs_witness :
    (finalizeResponse
        ⟨docsMode, "x".toList, [], [⟨"T".toList, "S".toList⟩]⟩).mode =
      docsMode :=
  (nonempty_citations_implies_docs
      ⟨docsMode, "x".toList, [], [⟨"T".toList, "S".toList⟩]⟩).1 (by decide)

/-! ### The text cleaner of scripts/build_docs_index.mjs (`cleanText`)

`cleanText` replaces U+00A0 by spaces, removes the `NOISE_PATTERNS`
(four plain case-insensitive patterns, then six word-bounded ones, in array
order, each replaced by a single space), removes repeated
`(hashtag\s*){2,}` runs, collapses `[ \t]+\n` to `\n`, `\n{3,}` to two
newlines, `[ \t]{2,}` to one space, and trims.  All noise patterns start
and end with word characters, so the word-boundary scanner can carry a
single "previous character is a word character" flag. -/

/-- U+00A0, the no-break space replaced by the first step. -/
def nbspC : Char := Char.ofNat 0xA0

/-- Case-insensitive (ASCII) prefix test: does `l` start with `pat`? -/
def ciPrefixB : List Char → List Char → Bool
  | [], _ => true
  | _ :: _, [] => false
  | p :: ps, c :: cs => (asciiLower c == asciiLower p) && ciPrefixB ps cs

theorem ciPrefixB_length : ∀ (p l : List Char), ciPrefixB p l = true →
    p.length ≤ l.length := by
  intro p
  induction p with
  | nil => intro l _; simp
  | cons a ps ih =>
    intro l h
    match l with
    | [] => simp [ciPrefixB] at h
    | c :: cs =>
      simp only [ciPrefixB, Bool.and_eq_true] at h
      have := ih cs h.2
      simp only [List.length_cons]
      omega

/-- Global case-insensitive replacement of a literal pattern by `" "`
(`String.prototype.replace` with a `gi` regex of a plain word): scan left to
right, replace each match, resume after it. -/
def replaceLitCI (pat : List Char) : List Char → List Char
  | [] => []
  | c :: rest =>
    if h : pat ≠ [] ∧ ciPrefixB pat (c :: rest) = true then
      ' ' :: replaceLitCI pat (List.drop pat.length (c :: rest))
    else c :: replaceLitCI pat rest
termination_by l => l.length
decreasing_by
  · have h1 : 0 < pat.length := List.length_pos.mpr h.1
    simp only [List.length_drop, List.length_cons]
    omega
  · simp

/-- Does a literal case-insensitive match of `pat` occur anywhere in the
list? -/
def hasLitMatch (pat : List Char) : List Char → Bool
  | [] => false
  | c :: rest =>
    if pat ≠ [] ∧ ciPrefixB pat (c :: rest) = true then true
    else hasLitMatch pat rest

/-- Is the position after a candidate match a word boundary (end of input or
a non-word character)? -/
def nextNonWord : List Char → Bool
  | [] => true
  | d :: _ => ! isWordChar d

/-- Global case-insensitive replacement of a word-bounded pattern
(`/\bpat\b/gi`) by `" "`.  `prevW` records whether the previous character
is a word character (false at the start of the string). -/
def replaceWB (pat : List Char) : Bool → List Char → List Char
  | _, [] => []
  | prevW, c :: rest =>
    if h : pat ≠ [] ∧ prevW = false ∧ ciPrefixB pat (c :: rest) = true ∧
        nextNonWord (List.drop pat.length (c :: rest)) = true then
      ' ' :: replaceWB pat false (List.drop pat.length (c :: rest))
    else c :: replaceWB pat (isWordChar c) rest
termination_by _ l => l.length
decreasing_by
  · have h1 : 0 < pat.length := List.length_pos.mpr h.1
    simp only [List.length_drop, List.length_cons]
    omega
  · simp

/-- Does a word-bounded case-insensitive match of `pat` occur anywhere? -/
def hasWBMatch (pat : List Char) : Bool → List Char → Bool
  | _, [] => false
  | prevW, c :: rest =>
    if pat ≠ [] ∧ prevW = false ∧ ciPrefixB pat (c :: rest) = true ∧
        nextNonWord (List.drop pat.length (c :: rest)) = true then true
    else hasWBMatch pat (isWordChar c) rest

/-- Greedy count of `(hashtag\s*)*` repetitions from the head, returning
the count and the remainder. -/
def countHashRun (l : List Char) : Nat × List Char :=
  if h : ciPrefixB "hashtag".toList l = true then
    ((countHashRun ((l.drop 7).dropWhile isJsSpace)).1 + 1,
      (countHashRun ((l.drop 7).dropWhile isJsSpace)).2)
  else (0, l)
termination_by l.length
decreasing_by
  all_goals
    have h1 : ("hashtag".toList).length ≤ l.length := ciPrefixB_length _ _ h
    have h2 : List.Sublist ((l.drop 7).dropWhile isJsSpace) (l.drop 7) :=
      List.dropWhile_sublist _
    have h3 := h2.length_le
    have h4 : ("hashtag".toList).length = 7 := rfl
    simp only [List.length_drop] at *
    omega

theorem countHashRun_le : ∀ l : List Char,
    (countHashRun l).2.length + 7 * (countHashRun l).1 ≤ l.length := by
  have main : ∀ (n : Nat) (l : List Char), l.length ≤ n →
      (countHashRun l).2.length + 7 * (countHashRun l).1 ≤ l.length := by
    intro n
    induction n with
    | zero =>
      intro l hle
      have hnil : l = [] := List.eq_nil_of_length_eq_zero (by omega)
      subst hnil
      rw [countHashRun]
      simp [ciPrefixB]
    | succ n ih =>
      intro l hle
      rw [countHashRun]
      by_cases h : ciPrefixB "hashtag".toList l = true
      · rw [dif_pos h]
        have h1 : ("hashtag".toList).length ≤ l.length := ciPrefixB_length _ _ h
        have h4 : ("hashtag".toList).length = 7 := rfl
        have h2 : List.Sublist ((l.drop 7).dropWhile isJsSpace) (l.drop 7) :=
          List.dropWhile_sublist _
        have h3 := h2.length_le
        have h5 := ih ((l.drop 7).dropWhile isJsSpace)
          (by simp only [List.length_drop] at *; omega)
        simp only [List.length_drop] at *
        omega
      · rw [dif_neg h]
        simp
  exact fun l => main l.length l (le_refl _)

theorem countHashRun_fst_pos (l : List Char)
    (h : 1 ≤ (countHashRun l).1) : ciPrefixB "hashtag".toList l = true := by
  by_contra hcon
  rw [countHashRun, dif_neg hcon] at h
  simp at h

theorem countHashRun_snd_lt (l : List Char) (h : 2 ≤ (countHashRun l).1) :
    (countHashRun l).2.length < l.length := by
  have h1 := countHashRun_le l
  omega

/-- A `dropWhile` of a tail is shorter than the whole cons cell. -/
theorem dropWhile_length_lt_cons (p : Char → Bool) (c : Char)
    (rest : List Char) : (rest.dropWhile p).length < (c :: rest).length := by
  have h2 : List.Sublist (rest.dropWhile p) rest := List.dropWhile_sublist _
  have h3 := h2.length_le
  simp only [List.length_cons]
  omega

/-- `replace(/(hashtag\s*){2,}/gi, " ")`: a run of two or more greedy
`hashtag` + whitespace repetitions collapses to one space. -/
def replHashRuns : List Char → List Char
  | [] => []
  | c :: rest =>
    if h : 2 ≤ (countHashRun (c :: rest)).1 then
      ' ' :: replHashRuns (countHashRun (c :: rest)).2
    else c :: replHashRuns rest
termination_by l => l.length
decreasing_by
  · exact countHashRun_snd_lt _ h
  · simp

/-- Space or tab (the `[ \t]` class). -/
def isSpTab (c : Char) : Bool := c = ' ' || c = '\t'

/-- Does the list, after leading spaces/tabs, continue with a newline? -/
def leadsToNl (l : List Char) : Bool :=
  match l.dropWhile isSpTab with
  | '\n' :: _ => true
  | _ => false

/-- `replace(/[ \t]+\n/g, "\n")`: spaces and tabs forming a run that ends
at a newline are dropped. -/
def step4a : List Char → List Char
  | [] => []
  | c :: rest =>
    if isSpTab c ∧ leadsToNl rest then step4a rest
    else c :: step4a rest

/-- Does a `[ \t]+\n` occurrence exist? -/
def has4a : List Char → Bool
  | [] => false
  | c :: rest =>
    if isSpTab c ∧ leadsToNl rest then true
    else has4a rest

/-- `replace(/\n{3,}/g, "\n\n")`. -/
def step4b : List Char → List Char
  | [] => []
  | c :: rest =>
    if h : c = '\n' ∧ 3 ≤ (rest.takeWhile (fun d => d = '\n')).length + 1 then
      '\n' :: '\n' :: step4b (rest.dropWhile (fun d => d = '\n'))
    else c :: step4b rest
termination_by l => l.length
decreasing_by
  · exact dropWhile_length_lt_cons _ _ _
  · simp

/-- Does a `\n{3,}` occurrence exist? -/
def has4b : List Char → Bool
  | [] => false
  | c :: rest =>
    if c = '\n' ∧ 3 ≤ (rest.takeWhile (fun d => d = '\n')).length + 1 then true
    else has4b rest

/-- Is the head a space or tab? -/
def headSpTab : List Char → Bool
  | [] => false
  | d :: _ => isSpTab d

/-- `replace(/[ \t]{2,}/g, " ")`: a run of two or more spaces/tabs
collapses to one space; a single space or tab is kept as-is. -/
def step4c : List Char → List Char
  | [] => []
  | c :: rest =>
    if h : isSpTab c ∧ headSpTab rest = true then
      ' ' :: step4c (rest.dropWhile isSpTab)
    else c :: step4c rest
termination_by l => l.length
decreasing_by
  · exact dropWhile_length_lt_cons _ _ _
  · simp

/-- Does a `[ \t]{2,}` occurrence exist? -/
def has4c : List Char → Bool
  | [] => false
  | c :: rest =>
    if isSpTab c ∧ headSpTab rest = true then true
    else has4c rest

/-- The four plain (non-word-bounded) noise patterns, in array order. -/
def litPats : List (List Char) :=
  ["arrow-up-right".toList, "chevron-left".toList, "chevron-right".toList,
    "hashtag".toList]

/-- The six word-bounded noise patterns, in array order. -/
def wbPats : List (List Char) :=
  ["copy".toList, "edit".toList, "search".toList,
    "powered by gitbook".toList, "previous".toList, "next".toList]

/-- `cleanText` of scripts/build_docs_index.mjs. -/
def cleanText (s : List Char) : List Char :=
  jsTrim (step4c (step4b (step4a (replHashRuns
    (wbPats.foldl (fun acc pat => replaceWB pat false acc)
      (litPats.foldl (fun acc pat => replaceLitCI pat acc)
        (s.map (fun c => if c = nbspC then ' ' else c))))))))

theorem mapNbsp_id (l : List Char) (h : l.any (fun c => c = nbspC) = false) :
    l.map (fun c => if c = nbspC then ' ' else c) = l := by
  induction l with
  | nil => rfl
  | cons c rest ih =>
    simp only [List.any_cons, Bool.or_eq_false_iff] at h
    simp only [List.map_cons]
    rw [if_neg (by simpa using h.1), ih h.2]

theorem replaceLitCI_id (pat : List Char) : ∀ l : List Char,
    hasLitMatch pat l = false → replaceLitCI pat l = l := by
  intro l
  induction l with
  | nil => intro _; rw [replaceLitCI]
  | cons c rest ih =>
    intro h
    rw [hasLitMatch] at h
    by_cases hc : pat ≠ [] ∧ ciPrefixB pat (c :: rest) = true
    · rw [if_pos hc] at h
      exact absurd h (by simp)
    · rw [if_neg hc] at h
      rw [replaceLitCI, dif_neg hc, ih h]

theorem replaceWB_id (pat : List Char) : ∀ (l : List Char) (b : Bool),
    hasWBMatch pat b l = false → replaceWB pat b l = l := by
  intro l
  induction l with
  | nil => intro b _; rw [replaceWB]
  | cons c rest ih =>
    intro b h
    rw [hasWBMatch] at h
    by_cases hc : pat ≠ [] ∧ b = false ∧ ciPrefixB pat (c :: rest) = true ∧
        nextNonWord (List.drop pat.length (c :: rest)) = true
    · rw [if_pos hc] at h
      exact absurd h (by simp)
    · rw [if_neg hc] at h
      rw [replaceWB, dif_neg hc, ih (isWordChar c) h]

theorem replHashRuns_id : ∀ l : List Char,
    hasLitMatch "hashtag".toList l = false → replHashRuns l = l := by
  intro l
  induction l with
  | nil => intro _; rw [replHashRuns]
  | cons c rest ih =>
    intro h
    rw [hasLitMatch] at h
    by_cases hc : ("hashtag".toList : List Char) ≠ [] ∧
        ciPrefixB "hashtag".toList (c :: rest) = true
    · rw [if_pos hc] at h
      exact absurd h (by simp)
    · rw [if_neg hc] at h
      have h2 : ¬ 2 ≤ (countHashRun (c :: rest)).1 := by
        intro hcon
        exact hc ⟨by decide, countHashRun_fst_pos _ (by omega)⟩
      rw [replHashRuns, dif_neg h2, ih h]

theorem step4a_id : ∀ l : List Char, has4a l = false → step4a l = l := by
  intro l
  induction l with
  | nil => intro _; rfl
  | cons c rest ih =>
    intro h
    rw [has4a] at h
    by_cases hc : isSpTab c ∧ leadsToNl rest
    · rw [if_pos hc] at h
      exact absurd h (by simp)
    · rw [if_neg hc] at h
      rw [step4a, if_neg hc, ih h]

theorem step4b_id : ∀ l : List Char, has4b l = false → step4b l = l := by
  intro l
  induction l with
  | nil => intro _; rw [step4b]
  | cons c rest ih =>
    intro h
    rw [has4b] at h
    by_cases hc : c = '\n' ∧ 3 ≤ (rest.takeWhile (fun d => d = '\n')).length + 1
    · rw [if_pos hc] at h
      exact absurd h (by simp)
    · rw [if_neg hc] at h
      rw [step4b, dif_neg hc, ih h]

theorem step4c_id : ∀ l : List Char, has4c l = false → step4c l = l := by
  intro l
  induction l with
  | nil => intro _; rw [step4c]
  | cons c rest ih =>
    intro h
    rw [has4c] at h
    by_cases hc : isSpTab c ∧ headSpTab rest = true
    · rw [if_pos hc] at h
      exact absurd h (by simp)
    · rw [if_neg hc] at h
      rw [step4c, dif_neg hc, ih h]

theorem foldl_replaceLitCI_id : ∀ (pats : List (List Char)) (l : List Char),
    (∀ pat ∈ pats, hasLitMatch pat l = false) →
    pats.foldl (fun acc pat => replaceLitCI pat acc) l = l := by
  intro pats
  induction pats with
  | nil => intro l _; rfl
  | cons p ps ih =>
    intro l h
    simp only [List.foldl_cons]
    rw [replaceLitCI_id p l (h p (by simp))]
    exact ih l (fun pat hp => h pat (by simp [hp]))

theorem foldl_replaceWB_id : ∀ (pats : List (List Char)) (l : List Char),
    (∀ pat ∈ pats, hasWBMatch pat false l = false) →
    pats.foldl (fun acc pat => replaceWB pat false acc) l = l := by
  intro pats
  induction pats with
  | nil => intro l _; rfl
  | cons p ps ih =>
    intro l h
    simp only [List.foldl_cons]
    rw [replaceWB_id p l false (h p (by simp))]
    exact ih l (fun pat hp => h pat (by simp [hp]))

/-- A string is "clean-normal" when it contains no no-break space, no
occurrence of any noise pattern, no space/tab run before a newline, no
triple newline, no double space/tab run, and is trimmed.  The output of
`cleanText` satisfies everything except noise-freedom by construction;
noise-freedom can fail because noise removal plus whitespace collapse can
manufacture a new noise occurrence. -/
def cleanNormal (l : List Char) : Bool :=
  !(l.any (fun c => c = nbspC)) &&
  litPats.all (fun pat => ! hasLitMatch pat l) &&
  wbPats.all (fun pat => ! hasWBMatch pat false l) &&
  !(has4a l) && !(has4b l) && !(has4c l) &&
  (jsTrim l == l)

theorem cleanText_id_of_normal (l : List Char) (h : cleanNormal l = true) :
    cleanText l = l := by
  unfold cleanNormal at h
  simp only [Bool.and_eq_true, Bool.not_eq_true', List.all_eq_true,
    beq_iff_eq] at h
  obtain ⟨⟨⟨⟨⟨⟨h1, h2⟩, h3⟩, h4⟩, h5⟩, h6⟩, h7⟩ := h
  unfold cleanText
  rw [mapNbsp_id l h1]
  rw [foldl_replaceLitCI_id litPats l (fun pat hp => by
    have := h2 pat hp
    simpa using this)]
  rw [foldl_replaceWB_id wbPats l (fun pat hp => by
    have := h3 pat hp
    simpa using this)]
  rw [replHashRuns_id l (by
    have := h2 ("hashtag".toList) (by simp [litPats])
    simpa using this)]
  rw [step4a_id l (by simpa using h4)]
  rw [step4b_id l (by simpa using h5)]
  rw [step4c_id l (by simpa using h6)]
  exact h7

/-- C6 (amended): `cleanText` is not idempotent on all inputs — noise
removal plus whitespace collapse can create a fresh noise-pattern match
that only a second pass removes (see the counterexample) — but it is
idempotent on every input whose cleaned form is clean-normal: free of
noise-pattern occurrences (its whitespace normalization and trimming hold
by construction and are checked in the same decidable guard). -/
theorem cleanText_idem_of_normal (x : List Char)
    (h : cleanNormal (cleanText x) = true) :
    cleanText (cleanText x) = cleanText x :=
  cleanText_id_of_normal (cleanText x) h

/-- C6 witness: a concrete input whose cleaned form is clean-normal, with
idempotence concluded from the amended theorem. -/
theorem cleanText_idem_of_normal_witness :
    cleanNormal (cleanText "Hello  world".toList) = true ∧
      cleanText (cleanText "Hello  world".toList) =
        cleanText "Hello  world".toList := by
  have he : cleanText "Hello  world".toList = "Hello world".toList := by
    simp [cleanText, litPats, wbPats, replaceLitCI, replaceWB, replHashRuns,
      countHashRun, ciPrefixB, step4a, step4b, step4c, jsTrim, isJsSpace,
      nbspC, leadsToNl, headSpTab, isSpTab, nextNonWord, isWordChar,
      asciiLower, isUpperAlpha, isLowerAlpha, isDigit]
  have hc : cleanNormal (cleanText "Hello  world".toList) = true := by
    rw [he]
    decide
  exact ⟨hc, cleanText_idem_of_normal "Hello  world".toList hc⟩

/-- C6 counterexample: cleaning is not idempotent.  In
`"a poweredhashtag by gitbook b"` the first pass removes `hashtag`, leaving
a double space inside `powered  by gitbook` that the same pass then
collapses, manufacturing a fresh `powered by gitbook` noise occurrence;
only the second pass removes it, so `clean(clean(x)) ≠ clean(x)`. -/
theorem cleanText_not_idempotent_cex :
    cleanText (cleanText "a poweredhashtag by gitbook b".toList) ≠
      cleanText "a poweredhashtag by gitbook b".toList := by
  have h1 : cleanText "a poweredhashtag by gitbook b".toList =
      "a powered by gitbook b".toList := by
    simp [cleanText, litPats, wbPats, replaceLitCI, replaceWB, replHashRuns,
      countHashRun, ciPrefixB, step4a, step4b, step4c, jsTrim, isJsSpace,
      nbspC, leadsToNl, headSpTab, isSpTab, nextNonWord, isWordChar,
      asciiLower, isUpperAlpha, isLowerAlpha, isDigit]
  have h2 : cleanText "a powered by gitbook b".toList = "a b".toList := by
    simp [cleanText, litPats, wbPats, replaceLitCI, replaceWB, replHashRuns,
      countHashRun, ciPrefixB, step4a, step4b, step4c, jsTrim, isJsSpace,
      nbspC, leadsToNl, headSpTab, isSpTab, nextNonWord, isWordChar,
      asciiLower, isUpperAlpha, isLowerAlpha, isDigit]
  rw [h1, h2]
  decide

end Giga
